import Mathlib

/-!
Verification of the writingassistant analysis engine.

Texts are modelled as `List Char`.  JS string indices are modelled as `Int`
(so that the -1 returned by `indexOf` is representable), counts as `Nat`,
and fractional arithmetic as `Rat`.  Wall-clock dependent fields of the
source records (`id`, `created_at`) are not modelled; every other field is.
-/

namespace WA

/-- ASCII whitespace characters; models the JS regex class \s for the
ASCII texts handled by the engine. -/
def isWs (c : Char) : Bool :=
  c == ' ' || c == '\t' || c == '\n' || c == '\r' || c == '\x0b' || c == '\x0c'

/-- Shorthand turning a string literal into the character-list
representation used throughout the model. -/
def str (s : String) : List Char := s.toList

/-- Character-by-character worker for the run-collapsing split: `acc` is
the reversed current token, `inRun` records whether the previous character
was a separator (in which case further separator characters are absorbed
into the same delimiter run). -/
def splitOnA (sep : Char → Bool) : List Char → List Char → Bool → List (List Char)
  | [], acc, _ => [acc.reverse]
  | c :: t, acc, inRun =>
    if sep c then
      if inRun then splitOnA sep t acc true
      else acc.reverse :: splitOnA sep t [] true
    else splitOnA sep t (c :: acc) false

/-- JS String.prototype.split on a character-class regex applied to runs
(models split(/\s+/) and split(/[.!?]+/)): a maximal run of separator
characters is one delimiter; leading and trailing runs produce empty
tokens, exactly as in JS. -/
def splitOn (sep : Char → Bool) (l : List Char) : List (List Char) :=
  splitOnA sep l [] false

/-- Worker for the single-character split. -/
def splitCharA (sepc : Char) : List Char → List Char → List (List Char)
  | [], acc => [acc.reverse]
  | c :: t, acc =>
    if c == sepc then acc.reverse :: splitCharA sepc t []
    else splitCharA sepc t (c :: acc)

/-- JS String.prototype.split with a single-character separator
(models s.split(',')): runs are not collapsed. -/
def splitChar (sep : Char) (l : List Char) : List (List Char) :=
  splitCharA sep l []

/-- JS String.prototype.trim restricted to the ASCII whitespace class. -/
def trim (l : List Char) : List Char :=
  ((l.dropWhile isWs).reverse.dropWhile isWs).reverse

/-- JS String.prototype.toLowerCase (ASCII). -/
def toLower (l : List Char) : List Char := l.map Char.toLower

/-- JS String.prototype.includes: substring containment. -/
def containsSub (hay nd : List Char) : Bool :=
  match hay with
  | [] => nd.isEmpty
  | c :: t => nd.isPrefixOf (c :: t) || containsSub t nd

/-- Scan for the needle at successive positions of a suffix of the
haystack; `p` is the absolute position of the head of the suffix. -/
def scanIdx (nd : List Char) : List Char → Nat → Option Nat
  | [], p => if nd.isPrefixOf ([] : List Char) then some p else none
  | c :: t, p => if nd.isPrefixOf (c :: t) then some p else scanIdx nd t (p + 1)

/-- JS String.prototype.indexOf(needle, fromIndex): clamps fromIndex into
[0, length], returns the first occurrence position, or -1 if none. -/
def jsIndexOf (hay nd : List Char) (fromIdx : Int) : Int :=
  let s := min fromIdx.toNat hay.length
  match scanIdx nd (hay.drop s) s with
  | some p => (p : Int)
  | none => -1

/-- JS String.prototype.substring(a, b): clamps both arguments into
[0, length] and swaps them if needed. -/
def jsSubstring (l : List Char) (a b : Int) : List Char :=
  let aN := min a.toNat l.length
  let bN := min b.toNat l.length
  (l.take (max aN bN)).drop (min aN bN)

/-- JS String.prototype.replace with a plain-string pattern: replaces the
first occurrence only; the string is returned unchanged when the pattern
does not occur. -/
def jsReplaceOnce (s pat rep : List Char) : List Char :=
  let i := jsIndexOf s pat 0
  if i < 0 then s else s.take i.toNat ++ rep ++ s.drop (i.toNat + pat.length)

/-- word.toLowerCase().replace(/[.,!?;:"']/g, '') from
generateBasicSuggestions (analyze-grammar/index.ts). -/
def cleanWord (w : List Char) : List Char :=
  (toLower w).filter (fun c =>
    !(c == '.' || c == ',' || c == '!' || c == '?' || c == ';' || c == ':' ||
      c == '"' || c == '\''))

/-- The fixed misspelling table of generateBasicSuggestions
(analyze-grammar/index.ts, lines 167-181). -/
def commonMisspellings : List (List Char × List Char) :=
  [(str "teh", str "the"), (str "adn", str "and"),
   (str "recieve", str "receive"), (str "seperate", str "separate"),
   (str "occured", str "occurred"), (str "definately", str "definitely"),
   (str "neccessary", str "necessary"), (str "begining", str "beginning"),
   (str "accomodate", str "accommodate"), (str "enviroment", str "environment"),
   (str "tommorow", str "tomorrow"), (str "wierd", str "weird"),
   (str "freind", str "friend")]

/-- JS property lookup commonMisspellings[cleanWord] (all table values are
truthy, so the JS truthiness test is Option.isSome here). -/
def lookupMiss (k : List Char) : Option (List Char) :=
  (commonMisspellings.find? (fun p => p.1 == k)).map Prod.snd

/-- The four issue categories of a suggestion. -/
inductive IssueType where
  | grammar
  | spelling
  | style
  | clarity
deriving DecidableEq

/-- The SuggestionResponse record of analyze-grammar/index.ts.  The
wall-clock fields id / created_at and the constant accepted := false are
not modelled. -/
structure Sugg where
  document_id : List Char
  start_index : Int
  end_index : Int
  issue_type : IssueType
  original_text : List Char
  suggested_text : List Char
  explanation : List Char
deriving DecidableEq

/-- The words.forEach loop of generateBasicSuggestions
(analyze-grammar/index.ts, lines 187-209): per-word currentIndex
bookkeeping through indexOf, emission on a misspelling-table hit.  The
case-sensitive single-occurrence String.replace of the source is kept
as-is. -/
def genBasicAux (text docId : List Char) : List (List Char) → Int → List Sugg
  | [], _ => []
  | w :: ws, ci =>
    let wordStart := jsIndexOf text w ci
    let rest := genBasicAux text docId ws (wordStart + (w.length : Int))
    match lookupMiss (cleanWord w) with
    | some corr =>
      { document_id := docId
        start_index := wordStart
        end_index := wordStart + (w.length : Int)
        issue_type := IssueType.spelling
        original_text := w
        suggested_text := jsReplaceOnce w (cleanWord w) corr
        explanation := str "Spelling: \"" ++ w ++ str "\" should be \"" ++
          corr ++ str "\"" } :: rest
    | none => rest

/-- generateBasicSuggestions (analyze-grammar/index.ts, lines 166-212):
whitespace tokenization, then the forEach loop starting at currentIndex 0. -/
def generateBasicSuggestions (text docId : List Char) : List Sugg :=
  genBasicAux text docId (splitOn isWs text) 0

/-- A LanguageTool match as consumed by the edge function; replacements
is the list of replacement values. -/
structure LTMatch where
  message : List Char
  offset : Int
  length : Int
  replacements : List (List Char)
  ruleId : List Char
  categoryId : List Char

/-- data.matches.map(...) of analyze-grammar/index.ts (lines 109-141):
issue-type precedence spelling > style > clarity > grammar via substring
tests, first replacement (or the original span) as the suggested text. -/
def convertMatch (text docId : List Char) (m : LTMatch) : Sugg :=
  let categoryId := toLower m.categoryId
  let ruleId := toLower m.ruleId
  let issueType :=
    if containsSub categoryId (str "typo") || containsSub ruleId (str "spell") then
      IssueType.spelling
    else if containsSub categoryId (str "style") ||
        containsSub categoryId (str "redundancy") then
      IssueType.style
    else if containsSub categoryId (str "clarity") ||
        containsSub categoryId (str "confused") then
      IssueType.clarity
    else IssueType.grammar
  let suggestedText :=
    match m.replacements with
    | [] => jsSubstring text m.offset (m.offset + m.length)
    | v :: _ => v
  { document_id := docId
    start_index := m.offset
    end_index := m.offset + m.length
    issue_type := issueType
    original_text := jsSubstring text m.offset (m.offset + m.length)
    suggested_text := suggestedText
    explanation := m.message }

/-- The dedup predicate of the reconciler: exact (start,end) equality. -/
def sameSpanB (a b : Sugg) : Bool :=
  a.start_index == b.start_index && a.end_index == b.end_index

/-- allSuggestions.filter((suggestion, index, self) =>
index === self.findIndex(s => s.start_index === suggestion.start_index &&
s.end_index === suggestion.end_index)) — the index-carrying filter of
analyze-grammar/index.ts lines 148-150. -/
def uniqueAux (orig : List Sugg) : Nat → List Sugg → List Sugg
  | _, [] => []
  | i, s :: rest =>
    if orig.findIdx (fun t => sameSpanB t s) == i then
      s :: uniqueAux orig (i + 1) rest
    else uniqueAux orig (i + 1) rest

/-- uniqueSuggestions of analyze-grammar/index.ts: keep each suggestion
whose index equals the first index carrying its exact (start,end) span. -/
def uniqueSuggestions (l : List Sugg) : List Sugg := uniqueAux l 0 l

/-- The Remote side of the merge: converted LanguageTool matches. -/
def remoteSuggestions (text docId : List Char) (ms : List LTMatch) : List Sugg :=
  ms.map (convertMatch text docId)

/-- The merged Remote-then-Local path of the serve handler
(analyze-grammar/index.ts, lines 109-151): [...suggestions,
...basicSuggestions] deduplicated by exact span. -/
def mergedSuggestions (text docId : List Char) (ms : List LTMatch) : List Sugg :=
  uniqueSuggestions (remoteSuggestions text docId ms ++ generateBasicSuggestions text docId)

/-- The JSON body returned by the analyze-grammar edge function: its only
field is the suggestion list (in particular there is no degraded flag). -/
structure GrammarResponse where
  suggestions : List Sugg
deriving DecidableEq

/-- The Local-only fallback path (analyze-grammar/index.ts, lines 96-104):
on a non-success Remote response the handler returns status 200 with the
basic suggestions as the whole body. -/
def fallbackResponse (text docId : List Char) : GrammarResponse :=
  ⟨generateBasicSuggestions text docId⟩

/-- The merged-path response body (analyze-grammar/index.ts, line 152). -/
def mergedResponse (text docId : List Char) (ms : List LTMatch) : GrammarResponse :=
  ⟨mergedSuggestions text docId ms⟩

/-! ## Tone classifier (analyze-tone/index.ts) -/

/-- The five tone categories, in the insertion order of the scores object
of analyzeTone (analyze-tone/index.ts, lines 131-137). -/
inductive Tone where
  | formal
  | casual
  | confident
  | friendly
  | professional
deriving DecidableEq

/-- Object.entries enumeration order of the scores object. -/
def toneOrder : List Tone :=
  [Tone.formal, Tone.casual, Tone.confident, Tone.friendly, Tone.professional]

/-- The JS regex word class \w = [A-Za-z0-9_]. -/
def isWordChar (c : Char) : Bool := c.isAlphanum || c == '_'

/-- Word boundary on the right of a match: end of text or a non-word
character (all indicators end in a word character). -/
def boundaryAfter (s : List Char) : Bool :=
  match s with
  | [] => true
  | c :: _ => !isWordChar c

/-- Word boundary on the left of a position, given the previous character
(all patterns considered start with a word character). -/
def boundaryBefore (prev : Option Char) : Bool :=
  match prev with
  | none => true
  | some d => !isWordChar d

/-- Fuel-driven worker for the g-flag exec loop (the fuel is the length of
the remaining text, which strictly decreases at every step). -/
def countWBF (ind : List Char) : Nat → List Char → Option Char → Nat
  | 0, _, _ => 0
  | _ + 1, [], _ => 0
  | fuel + 1, c :: t, prev =>
    if boundaryBefore prev && ind.isPrefixOf (c :: t) &&
        boundaryAfter ((c :: t).drop ind.length) then
      1 + countWBF ind fuel ((c :: t).drop (max 1 ind.length))
        (some (ind.getLast?.getD c))
    else countWBF ind fuel t (some c)

/-- The g-flag exec loop of new RegExp(`\b${indicator}\b`, 'gi') over an
already-lowercased text: counts non-overlapping word-boundary occurrences,
advancing past each match. -/
def countWB (ind : List Char) (text : List Char) (prev : Option Char) : Nat :=
  countWBF ind text.length text prev

/-- countMatches (analyze-tone/index.ts, lines 159-165): each
word-boundary occurrence of an indicator contributes weight 5. -/
def countMatches (text : List Char) (inds : List (List Char)) : Nat :=
  inds.foldl (fun acc ind => acc + countWB ind text none * 5) 0

def formalIndicators : List (List Char) :=
  [str "therefore", str "furthermore", str "consequently", str "nevertheless",
   str "moreover", str "however", str "thus", str "hence", str "indeed",
   str "whereas", str "notwithstanding", str "accordingly", str "subsequently",
   str "nonetheless", str "henceforth"]

def casualIndicators : List (List Char) :=
  [str "yeah", str "okay", str "cool", str "awesome", str "totally",
   str "basically", str "actually", str "like", str "you know", str "kinda",
   str "sorta", str "gonna", str "wanna", str "gotta"]

def confidentIndicators : List (List Char) :=
  [str "definitely", str "certainly", str "absolutely", str "clearly",
   str "obviously", str "undoubtedly", str "surely", str "precisely",
   str "exactly", str "guaranteed", str "proven", str "established",
   str "confident", str "assured", str "decisive"]

def friendlyIndicators : List (List Char) :=
  [str "thanks", str "please", str "welcome", str "appreciate",
   str "wonderful", str "great", str "excellent", str "amazing",
   str "fantastic", str "love", str "enjoy", str "happy", str "excited",
   str "delighted", str "pleased"]

def professionalIndicators : List (List Char) :=
  [str "regarding", str "concerning", str "pursuant", str "objective",
   str "analysis", str "implementation", str "strategy", str "optimize",
   str "leverage", str "facilitate", str "comprehensive", str "systematic",
   str "methodology", str "framework", str "initiative"]

/-- Sentence separator class [.!?]. -/
def sentSep (c : Char) : Bool := c == '.' || c == '!' || c == '?'

/-- text.split(/[.!?]+/).filter(s => s.trim().length > 0) — shared by the
tone and readability analyzers. -/
def sentencesOf (text : List Char) : List (List Char) :=
  (splitOn sentSep text).filter (fun s => decide (0 < (trim s).length))

/-- hasComplexSentences: some sentence splits into more than 3
comma-separated pieces. -/
def hasComplexSentences (ss : List (List Char)) : Bool :=
  ss.any (fun s => decide (3 < (splitChar ',' s).length))

def auxVerbs : List (List Char) :=
  [str "was", str "were", str "is", str "are", str "been", str "being"]

/-- The \s+\w+ed\b tail of the passive-voice regex: at least one
whitespace character, then a maximal word-character run of length ≥ 3
ending in "ed". -/
def passiveTail (s : List Char) : Bool :=
  match s with
  | [] => false
  | c :: t =>
    isWs c &&
      (let run := (t.dropWhile isWs).takeWhile isWordChar
       decide (3 ≤ run.length) && (run.drop (run.length - 2) == str "ed"))

/-- One-position test of /\b(was|were|is|are|been|being)\s+\w+ed\b/. -/
def passiveAt (here : List Char) (prev : Option Char) : Bool :=
  boundaryBefore prev &&
    auxVerbs.any (fun a => a.isPrefixOf here && passiveTail (here.drop a.length))

/-- hasPassiveVoice (analyze-tone/index.ts, lines 171-173), applied to the
lowercased text. -/
def passiveScan : List Char → Option Char → Bool
  | [], _ => false
  | c :: t, prev => passiveAt (c :: t) prev || passiveScan t (some c)

def hasPassiveVoice (text : List Char) : Bool := passiveScan text none

def contractionSuffixes : List (List Char) :=
  [str "t", str "re", str "ve", str "ll", str "d"]

/-- One-position test of /\b\w+['’](?:t|re|ve|ll|d)\b/: a maximal word
run of length ≥ 1, an apostrophe, one of the suffixes, then a boundary. -/
def contractionAt (here : List Char) (prev : Option Char) : Bool :=
  boundaryBefore prev &&
    (let run := here.takeWhile isWordChar
     decide (1 ≤ run.length) &&
       (match here.drop run.length with
        | [] => false
        | a :: rest =>
          (a == '\'' || a == '’') &&
            contractionSuffixes.any (fun sfx =>
              sfx.isPrefixOf rest && boundaryAfter (rest.drop sfx.length))))

def contractionScan : List Char → Option Char → Bool
  | [], _ => false
  | c :: t, prev => contractionAt (c :: t) prev || contractionScan t (some c)

/-- hasContractions (analyze-tone/index.ts, lines 175-177); the i flag is
modelled by lowercasing first (the \w class and boundaries are
case-stable). -/
def hasContractions (text : List Char) : Bool :=
  contractionScan (toLower text) none

/-- hasShortSentences: average of s.split(/\s+/).length over the
sentences is < 12; empty sentence list compares NaN < 12 = false.  The
rational comparison sum/len < 12 is modelled exactly as sum < 12·len. -/
def hasShortSentences (ss : List (List Char)) : Bool :=
  if ss.length == 0 then false
  else decide ((ss.map (fun s => (splitOn isWs s).length)).sum < 12 * ss.length)

/-- hasDeclarativeStatements: sentences containing neither ? nor !
outnumber 70% of all sentences (0.7 modelled exactly as 7/10). -/
def hasDeclarativeStatements (ss : List (List Char)) : Bool :=
  decide (7 * ss.length <
    10 * (ss.filter (fun s => !s.contains '?' && !s.contains '!')).length)

def hasExclamations (text : List Char) : Bool := text.contains '!'

def hasQuestions (text : List Char) : Bool := text.contains '?'

def businessTerms : List (List Char) :=
  [str "roi", str "kpi", str "synergy", str "stakeholder", str "deliverable",
   str "milestone"]

/-- hasBusinessTerms: plain substring containment (no word boundaries). -/
def hasBusinessTerms (text : List Char) : Bool :=
  businessTerms.any (fun t => containsSub text t)

/-- The five category scores of analyzeTone (analyze-tone/index.ts, lines
112-128): lexicon matches at weight 5 plus the structural boosts. -/
def toneScoresOf (text : List Char) : Tone → Nat :=
  let lowerText := toLower text
  let ss := sentencesOf text
  fun t =>
    match t with
    | Tone.formal =>
      countMatches lowerText formalIndicators +
        (if hasComplexSentences ss then 20 else 0) +
        (if hasPassiveVoice lowerText then 15 else 0)
    | Tone.casual =>
      countMatches lowerText casualIndicators +
        (if hasContractions text then 15 else 0) +
        (if hasShortSentences ss then 10 else 0)
    | Tone.confident =>
      countMatches lowerText confidentIndicators +
        (if hasDeclarativeStatements ss then 15 else 0)
    | Tone.friendly =>
      countMatches lowerText friendlyIndicators +
        (if hasExclamations text then 10 else 0) +
        (if hasQuestions text then 5 else 0)
    | Tone.professional =>
      countMatches lowerText professionalIndicators +
        (if hasBusinessTerms lowerText then 15 else 0)

/-- Math.max(...Object.values(scores)) in the values order
[formal, casual, confident, friendly, professional]. -/
def maxToneScore (text : List Char) : Nat :=
  max (max (max (max (toneScoresOf text Tone.formal) (toneScoresOf text Tone.casual))
    (toneScoresOf text Tone.confident)) (toneScoresOf text Tone.friendly))
    (toneScoresOf text Tone.professional)

/-- Object.entries(scores).find(([_, score]) => score === maxScore)?.[0],
with the || 'professional' fallback of line 152. -/
def dominantTone (text : List Char) : Tone :=
  (toneOrder.find? (fun t => toneScoresOf text t == maxToneScore text)).getD
    Tone.professional

/-- Math.round: ties toward positive infinity. -/
def jsRound (x : ℚ) : ℤ := ⌊x + 1 / 2⌋

def toneTotal (text : List Char) : Nat :=
  toneScoresOf text Tone.formal + toneScoresOf text Tone.casual +
    toneScoresOf text Tone.confident + toneScoresOf text Tone.friendly +
    toneScoresOf text Tone.professional

/-- The confidence of analyzeTone (line 144): min(100, round(100·max/sum))
when the total is positive, else the fixed neutral 50.  The summary string
(presentation) is not modelled. -/
def toneConfidence (text : List Char) : ℤ :=
  if 0 < toneTotal text then
    min 100 (jsRound ((maxToneScore text : ℚ) / (toneTotal text : ℚ) * 100))
  else 50

/-! ## Readability calculator (analyze-readability/index.ts) -/

/-- text.split(/\s+/).filter(w => w.length > 0). -/
def wordsOf (text : List Char) : List (List Char) :=
  (splitOn isWs text).filter (fun w => decide (0 < w.length))

def isLowerAlpha (c : Char) : Bool := decide ('a' ≤ c) && decide (c ≤ 'z')

/-- word.replace(/[^a-z]/g, '') in countSyllables. -/
def syllClean (w : List Char) : List Char := w.filter isLowerAlpha

def isVowel (c : Char) : Bool := (['a', 'e', 'i', 'o', 'u', 'y']).contains c

/-- The vowel-group counting walk of countSyllables: count each vowel seen
right after a non-vowel. -/
def vgAux : List Char → Bool → Nat
  | [], _ => 0
  | c :: t, prevV => (if isVowel c && !prevV then 1 else 0) + vgAux t (isVowel c)

/-- Per-word syllable count (analyze-readability/index.ts, lines 149-175):
empty cleaned word contributes 0; silent final e subtracts one when the
count exceeds 1; otherwise floored at 1. -/
def syllOfWord (w : List Char) : Nat :=
  let cw := syllClean w
  if cw.isEmpty then 0
  else
    let n := vgAux cw false
    let n2 := if cw.getLast? == some 'e' && decide (1 < n) then n - 1 else n
    max 1 n2

/-- countSyllables (lines 146-176): lowercase, split on whitespace, drop
empty tokens, sum the per-word counts. -/
def countSyllables (text : List Char) : Nat :=
  ((splitOn isWs (toLower text)).filter (fun w => decide (0 < w.length))).foldl
    (fun total w => total + syllOfWord w) 0

/-- The three readability score types. -/
inductive ScoreType where
  | flesch_reading_ease
  | flesch_kincaid_grade
  | automated_readability
deriving DecidableEq

/-- A ReadabilityScore record; id and generated_at (wall clock) are not
modelled. -/
structure RScore where
  document_id : List Char
  score_type : ScoreType
  score_value : ℚ
  analysis_text_length : Nat
deriving DecidableEq

/-- Math.round(x * 10) / 10 — round to one decimal. -/
def round1 (x : ℚ) : ℚ := (jsRound (x * 10) : ℚ) / 10

/-- calculateReadabilityScores (analyze-readability/index.ts, lines
81-144): none models the thrown invalid-structure error; JS float
arithmetic is modelled by exact rationals.  The summary string
(presentation) is not modelled. -/
def calculateReadabilityScores (text docId : List Char) : Option (List RScore) :=
  let sc := (sentencesOf text).length
  let wc := (wordsOf text).length
  let syl := countSyllables text
  if sc == 0 || wc == 0 then none
  else
    let L : ℚ := (wc : ℚ) / (sc : ℚ)
    let S : ℚ := (syl : ℚ) / (wc : ℚ)
    let fre : ℚ := 206835 / 1000 - 1015 / 1000 * L - 846 / 10 * S
    let fkg : ℚ := 39 / 100 * L + 118 / 10 * S - 1559 / 100
    let cpw : ℚ := ((text.filter (fun c => !isWs c)).length : ℚ) / (wc : ℚ)
    let ari : ℚ := 471 / 100 * cpw + 1 / 2 * L - 2143 / 100
    some [⟨docId, ScoreType.flesch_reading_ease, round1 (max 0 (min 100 fre)), text.length⟩,
          ⟨docId, ScoreType.flesch_kincaid_grade, round1 (max 0 fkg), text.length⟩,
          ⟨docId, ScoreType.automated_readability, round1 (max 0 ari), text.length⟩]

/-! ## Retry policy (useAuthStore: isRetryableError / retryOperation) -/

/-- A thrown JS error, reduced to its message. -/
structure JsError where
  message : List Char
deriving DecidableEq

def retryableMessages : List (List Char) :=
  [str "failed to fetch", str "network error", str "err_name_not_resolved",
   str "err_network", str "err_internet_disconnected",
   str "err_connection_timed_out", str "timeout"]

/-- isRetryableError: case-insensitive substring match of the message
against the fixed phrase list. -/
def isRetryableError (e : JsError) : Bool :=
  retryableMessages.any (fun m => containsSub (toLower e.message) m)

/-- The for-loop of retryOperation, attempts `attempt .. attempt+remaining`
(remaining = maxRetries − attempt).  The operation is modelled as a map
from attempt index to outcome; the returned list records the backoff
delays slept (delay · 2^attempt before each retry). -/
def retryAux {α : Type} (op : Nat → Except JsError α) (delay : Nat) :
    Nat → Nat → Except JsError α × List Nat
  | attempt, 0 =>
    (match op attempt with
     | Except.ok v => (Except.ok v, [])
     | Except.error e => (Except.error e, []))
  | attempt, remaining + 1 =>
    match op attempt with
    | Except.ok v => (Except.ok v, [])
    | Except.error e =>
      if isRetryableError e then
        let r := retryAux op delay (attempt + 1) remaining
        (r.1, delay * 2 ^ attempt :: r.2)
      else (Except.error e, [])

/-- retryOperation (hooks/useAuthStore, lines 92-118): attempts 0 through
maxRetries; a non-retryable error or the last attempt's error propagates;
otherwise sleep delay · 2^attempt and retry. -/
def retryOperation {α : Type} (op : Nat → Except JsError α)
    (maxRetries delay : Nat) : Except JsError α × List Nat :=
  retryAux op delay 0 maxRetries

/-! ## Debounce coordinator (SuggestionEngine.analyzeTextDebounced)

The source keeps one private static debounceTimeout for the whole class.
analyzeTextDebounced clears any pending timeout (whatever document it was
scheduled for) and schedules a new one; when a timeout fires, the analysis
runs and its callback is always invoked on completion — the code contains
no generation counter and no staleness check.  The `gens` field below is
ghost bookkeeping: the per-document edit ordinal that the specification
calls the generation. -/

/-- A scheduled or in-flight analysis request: the document it belongs to
and the edit ordinal (generation) it was scheduled by. -/
structure Task where
  doc : Nat
  gen : Nat
deriving DecidableEq

/-- The engine's observable state: the single static debounce slot, the
analyses whose timer has fired and are awaiting completion, the results
delivered to callbacks, and the ghost per-document edit counters. -/
structure EngineState where
  pending : Option Task
  running : List Task
  delivered : List Task
  gens : Nat → Nat

/-- Events: an edit (a call to analyzeTextDebounced for a document), the
debounce timer firing, and an in-flight analysis completing. -/
inductive Event where
  | edit (doc : Nat)
  | fire
  | complete (t : Task)

/-- One step of the coordinator.  edit: clearTimeout + setTimeout — the
single pending slot is overwritten regardless of document.  fire: the
pending analysis is dispatched.  complete: the callback is invoked
unconditionally (the code never compares generations). -/
def step (s : EngineState) : Event → EngineState
  | Event.edit d =>
    { pending := some ⟨d, s.gens d + 1⟩
      running := s.running
      delivered := s.delivered
      gens := fun d2 => if d2 = d then s.gens d + 1 else s.gens d2 }
  | Event.fire =>
    match s.pending with
    | some t => { s with pending := none, running := t :: s.running }
    | none => s
  | Event.complete t =>
    if t ∈ s.running then
      { s with running := s.running.erase t, delivered := t :: s.delivered }
    else s

/-- Run a sequence of events. -/
def runEngine (s : EngineState) (es : List Event) : EngineState :=
  es.foldl step s

/-- The initial state: nothing scheduled, no edits seen. -/
def initState : EngineState := ⟨none, [], [], fun _ => 0⟩

/-- handleAcceptSuggestion (Editor.tsx, lines 73-83): replace the span
[start_index, end_index) of the content with the suggested text
(JS substring clamps negative indices to 0 and large ones to the length,
as Int.toNat with take/drop does). -/
def applyAccept (content : List Char) (s : Sugg) : List Char :=
  content.take s.start_index.toNat ++ s.suggested_text ++
    content.drop s.end_index.toNat

/-- A task is absent from the machine: not the pending slot, not in
flight, not delivered, and its generation does not exceed the ghost
counter of its document. -/
def absentTask (t : Task) (s : EngineState) : Prop :=
  s.pending ≠ some t ∧ t ∉ s.running ∧ t ∉ s.delivered ∧ t.gen ≤ s.gens t.doc

/-! ## Helper lemmas -/

/-- Char.ofNat round-trips on valid code points. -/
theorem char_ofNat_toNat {n : Nat} (h : n.isValidChar) : (Char.ofNat n).toNat = n := by
  unfold Char.ofNat
  rw [dif_pos h]
  unfold Char.ofNatAux Char.toNat
  simp [UInt32.toNat, BitVec.toNat_ofNatLt]

/-- Char equality testing is equality of code points. -/
theorem char_beq_toNat (a b : Char) : (a == b) = (a.toNat == b.toNat) := by
  rw [Bool.eq_iff_iff]
  simp only [beq_iff_eq]
  constructor
  · intro h; rw [h]
  · intro h
    apply Char.eq_of_val_eq
    apply UInt32.eq_of_toBitVec_eq
    exact BitVec.eq_of_toNat_eq h

/-- isWs expressed on code points. -/
theorem isWs_toNat (c : Char) :
    isWs c = (c.toNat == 32 || c.toNat == 9 || c.toNat == 10 || c.toNat == 13 ||
      c.toNat == 11 || c.toNat == 12) := by
  unfold isWs
  rw [char_beq_toNat c ' ', char_beq_toNat c '\t', char_beq_toNat c '\n',
    char_beq_toNat c '\r', char_beq_toNat c '\x0b', char_beq_toNat c '\x0c']
  rfl

/-- Lowercasing does not change whitespace-ness (toLowerCase only moves
A-Z to a-z). -/
theorem isWs_toLower (c : Char) : isWs c.toLower = isWs c := by
  rw [isWs_toNat, isWs_toNat]
  simp only [Char.toLower]
  by_cases h : c.toNat ≥ 65 ∧ c.toNat ≤ 90
  · rw [if_pos h]
    rw [char_ofNat_toNat (Or.inl (by omega))]
    rw [Bool.eq_iff_iff]
    simp only [Bool.or_eq_true, beq_iff_eq]
    omega
  · rw [if_neg h]

/-- The split worker commutes with a separator-preserving character map. -/
theorem splitOnA_map (sep : Char → Bool) (f : Char → Char)
    (hf : ∀ c, sep (f c) = sep c) :
    ∀ (l acc : List Char) (flag : Bool),
      splitOnA sep (l.map f) (acc.map f) flag =
        (splitOnA sep l acc flag).map (List.map f) := by
  intro l
  induction l with
  | nil =>
    intro acc flag
    simp [splitOnA, List.map_reverse]
  | cons c t ih =>
    intro acc flag
    simp only [List.map_cons, splitOnA, hf c]
    cases hsep : sep c with
    | true =>
      cases flag with
      | true =>
        have h0 := ih acc true
        simp [hsep, h0]
      | false =>
        have h0 := ih [] true
        simp only [List.map_nil] at h0
        simp [hsep, h0, List.map_reverse]
    | false =>
      have h0 := ih (c :: acc) false
      simp only [List.map_cons] at h0
      simp [hsep, h0]

/-- splitOn commutes with a separator-preserving character map. -/
theorem splitOn_map (sep : Char → Bool) (f : Char → Char)
    (hf : ∀ c, sep (f c) = sep c) (l : List Char) :
    splitOn sep (l.map f) = (splitOn sep l).map (List.map f) := by
  unfold splitOn
  have h := splitOnA_map sep f hf l [] false
  simpa using h

/-- The nonempty word tokens of the lowercased text are the lowercased
nonempty word tokens of the text. -/
theorem wordsOf_toLower_eq (text : List Char) :
    wordsOf (toLower text) = (wordsOf text).map (List.map Char.toLower) := by
  unfold wordsOf toLower
  rw [splitOn_map isWs Char.toLower isWs_toLower]
  rw [List.filter_map]
  congr 1
  apply List.filter_congr
  intro w _
  simp [Function.comp]

/-- Folding the syllable adder equals the initial value plus the sum. -/
theorem foldl_add_syll (ws : List (List Char)) (acc : Nat) :
    ws.foldl (fun total w => total + syllOfWord w) acc =
      acc + (ws.map syllOfWord).sum := by
  induction ws generalizing acc with
  | nil => simp
  | cons w ws ih =>
    simp only [List.foldl_cons, List.map_cons, List.sum_cons]
    rw [ih]
    omega

/-- Each word contributes one syllable or one letterless-word tick. -/
theorem syllSum_ge (ws : List (List Char)) :
    ws.length ≤ (ws.map syllOfWord).sum +
      ws.countP (fun w => (syllClean w).isEmpty) := by
  induction ws with
  | nil => simp
  | cons w ws ih =>
    simp only [List.length_cons, List.map_cons, List.sum_cons, List.countP_cons]
    by_cases hw : (syllClean w).isEmpty = true
    · have h0 : syllOfWord w = 0 := by
        unfold syllOfWord
        rw [if_pos hw]
      simp only [hw, h0, if_true]
      omega
    · have h1 : 1 ≤ syllOfWord w := by
        unfold syllOfWord
        rw [if_neg hw]
        exact le_max_left 1 _
      omega

/-! ## Claim C4 — degraded fallback scenario -/

/-- Claim C4 (counterexample): for text "Teh qick brown fox." with the
Remote source unreachable, no suggestion in the fallback response carries
suggested text "the" — the case-sensitive String.replace leaves the
capitalised word unchanged — so the claimed suggestion
(0, 3, spelling, "the") is not returned; the response body also carries no
degraded field (its only field is the suggestion list). -/
theorem c4_counterexample :
    ((fallbackResponse (str "Teh qick brown fox.") (str "d1")).suggestions.all
      (fun s => !(s.suggested_text == str "the"))) = true := by decide

/-- Claim C4 (amended): with the Remote source unreachable, the handler
returns status 200 whose body's only field is the Local suggestion list;
for text "Teh qick brown fox." that list is exactly one spelling
suggestion with span (0, 3) whose suggested text is the unchanged "Teh"
(the case-sensitive replace misses the capitalised word) and whose
explanation names "the". -/
theorem c4_fallback_shape :
    fallbackResponse (str "Teh qick brown fox.") (str "d1") =
      ⟨[{ document_id := str "d1", start_index := 0, end_index := 3,
          issue_type := IssueType.spelling, original_text := str "Teh",
          suggested_text := str "Teh",
          explanation := str "Spelling: \"Teh\" should be \"the\"" }]⟩ := by
  decide

/-! ## Claim C6 — syllable lower bound -/

/-- Claim C6 (counterexample): the non-empty text "7" has one word but
zero syllables — a word with no letters cleans to the empty string and
contributes 0, not 1. -/
theorem c6_counterexample :
    countSyllables (str "7") = 0 ∧ (wordsOf (str "7")).length = 1 ∧
      ¬((wordsOf (str "7")).length ≤ countSyllables (str "7")) := by decide

/-- Claim C6 (amended): every word containing at least one letter
contributes at least one syllable, so syllableCount plus the number of
letterless words bounds wordCount; syllableCount ≥ wordCount holds only
up to the letterless words. -/
theorem c6_syllable_bound (text : List Char) :
    (wordsOf text).length ≤
      countSyllables text +
        (wordsOf (toLower text)).countP (fun w => (syllClean w).isEmpty) := by
  have h1 : countSyllables text = ((wordsOf (toLower text)).map syllOfWord).sum := by
    unfold countSyllables wordsOf
    rw [foldl_add_syll]
    omega
  have h2 : (wordsOf text).length = (wordsOf (toLower text)).length := by
    rw [wordsOf_toLower_eq]
    simp
  rw [h1, h2]
  exact syllSum_ge _

/-! ## Claim C8 — retry policy -/

/-- Claim C8: an operation failing with retryable (network-phrase)
messages is attempted 4 times in total (3 additional), sleeping the
backoff sequence base, 2·base, 4·base, and the last error propagates with
no further attempts (the outcome does not depend on the operation beyond
attempt 3); a non-retryable failure propagates immediately with no retry
and no sleep. -/
theorem c8_retry_policy (base : Nat) (op opN : Nat → Except JsError Unit)
    (e : Nat → JsError) (eN : JsError)
    (hop : ∀ i, op i = Except.error (e i))
    (hret : ∀ i, isRetryableError (e i) = true)
    (hopN : opN 0 = Except.error eN)
    (hno : isRetryableError eN = false) :
    retryOperation op 3 base = (Except.error (e 3), [base, 2 * base, 4 * base]) ∧
    retryOperation opN 3 base = (Except.error eN, []) ∧
    (∀ op2 : Nat → Except JsError Unit, (∀ i, i ≤ 3 → op2 i = op i) →
      retryOperation op2 3 base = retryOperation op 3 base) := by
  refine ⟨?_, ?_, ?_⟩
  · show retryAux op base 0 3 = _
    simp only [retryAux, hop 0, hop 1, hop 2, hop 3, hret 0, hret 1, hret 2,
      if_pos rfl]
    simp [pow_succ, Nat.mul_comm]
  · show retryAux opN base 0 3 = _
    simp only [retryAux, hopN, hno]
    simp
  · intro op2 h2
    show retryAux op2 base 0 3 = retryAux op base 0 3
    simp only [retryAux, h2 0 (by omega), h2 1 (by omega), h2 2 (by omega),
      h2 3 (by omega)]

/-- Concrete instantiation of the retry-policy theorem: a persistent
"network error" failure sleeps 1000, 2000, 4000 and then propagates; a
"boom" failure propagates at once with no sleeps. -/
theorem c8_retry_policy_witness :
    retryOperation (fun _ => (Except.error ⟨str "network error"⟩ : Except JsError Unit))
      3 1000 = (Except.error ⟨str "network error"⟩, [1000, 2000, 4000]) ∧
    retryOperation (fun _ => (Except.error ⟨str "boom"⟩ : Except JsError Unit))
      3 1000 = (Except.error ⟨str "boom"⟩, []) := by
  have hr : isRetryableError ⟨str "network error"⟩ = true := by decide
  have hb : isRetryableError ⟨str "boom"⟩ = false := by decide
  have h := c8_retry_policy 1000
    (fun _ => Except.error ⟨str "network error"⟩)
    (fun _ => Except.error ⟨str "boom"⟩)
    (fun _ => ⟨str "network error"⟩) ⟨str "boom"⟩
    (fun _ => rfl) (fun _ => hr) rfl hb
  exact ⟨by simpa using h.1, by simpa using h.2.1⟩

/-! ## Claim C5 — readability score ranges and rounding -/

/-- Rounding to one decimal preserves non-negativity. -/
theorem round1_nonneg {y : ℚ} (hy : 0 ≤ y) : 0 ≤ round1 y := by
  unfold round1 jsRound
  apply div_nonneg _ (by norm_num)
  have h1 : (0 : ℤ) ≤ ⌊y * 10 + 1 / 2⌋ := by
    rw [Int.le_floor]
    push_cast
    linarith
  exact_mod_cast h1

/-- Rounding to one decimal preserves the 100 bound. -/
theorem round1_le_100 {y : ℚ} (hy : y ≤ 100) : round1 y ≤ 100 := by
  unfold round1 jsRound
  rw [div_le_iff (by norm_num : (0 : ℚ) < 10)]
  have h2 : (⌊y * 10 + 1 / 2⌋ : ℚ) ≤ y * 10 + 1 / 2 := Int.floor_le _
  have h3 : y * 10 + 1 / 2 < 1001 := by linarith
  have h4 : (⌊y * 10 + 1 / 2⌋ : ℚ) < 1001 := lt_of_le_of_lt h2 h3
  have h5 : ⌊y * 10 + 1 / 2⌋ < (1001 : ℤ) := by exact_mod_cast h4
  have h6 : ⌊y * 10 + 1 / 2⌋ ≤ (1000 : ℤ) := by omega
  calc (⌊y * 10 + 1 / 2⌋ : ℚ) ≤ 1000 := by exact_mod_cast h6
    _ = 100 * 10 := by norm_num

/-- A rounded value is an integer number of tenths. -/
theorem round1_tenth (y : ℚ) : ∃ n : ℤ, round1 y = (n : ℚ) / 10 :=
  ⟨jsRound (y * 10), rfl⟩

/-- Claim C7 helper is below; Claim C5: for every text with positive word
and sentence counts the calculator succeeds and returns exactly the three
scores, with the Flesch reading ease clamped into [0,100], the other two
floored at 0, and each value an integer number of tenths (rounded to one
decimal place). -/
theorem c5_readability_bounds (text docId : List Char)
    (hw : 0 < (wordsOf text).length) (hs : 0 < (sentencesOf text).length) :
    ∃ f g a : ℚ,
      calculateReadabilityScores text docId =
        some [⟨docId, ScoreType.flesch_reading_ease, f, text.length⟩,
              ⟨docId, ScoreType.flesch_kincaid_grade, g, text.length⟩,
              ⟨docId, ScoreType.automated_readability, a, text.length⟩] ∧
      0 ≤ f ∧ f ≤ 100 ∧ (∃ n : ℤ, f = (n : ℚ) / 10) ∧
      0 ≤ g ∧ (∃ n : ℤ, g = (n : ℚ) / 10) ∧
      0 ≤ a ∧ (∃ n : ℤ, a = (n : ℚ) / 10) := by
  have hc : (((sentencesOf text).length == 0) || ((wordsOf text).length == 0)) = false := by
    rw [Bool.or_eq_false_iff]
    constructor
    · rw [beq_eq_false_iff_ne]
      omega
    · rw [beq_eq_false_iff_ne]
      omega
  unfold calculateReadabilityScores
  simp only [hc, Bool.false_eq_true, if_false]
  exact ⟨_, _, _, rfl, round1_nonneg (le_max_left 0 _),
    round1_le_100 (max_le (by norm_num) (min_le_left _ _)), round1_tenth _,
    round1_nonneg (le_max_left 0 _), round1_tenth _,
    round1_nonneg (le_max_left 0 _), round1_tenth _⟩

/-- Concrete instantiation of the readability-bounds theorem at the text
"Hi." (one word, one sentence). -/
theorem c5_readability_bounds_witness :
    0 < (wordsOf (str "Hi.")).length ∧ 0 < (sentencesOf (str "Hi.")).length ∧
    (∃ f g a : ℚ,
      calculateReadabilityScores (str "Hi.") (str "d") =
        some [⟨str "d", ScoreType.flesch_reading_ease, f, (str "Hi.").length⟩,
              ⟨str "d", ScoreType.flesch_kincaid_grade, g, (str "Hi.").length⟩,
              ⟨str "d", ScoreType.automated_readability, a, (str "Hi.").length⟩] ∧
      0 ≤ f ∧ f ≤ 100 ∧ (∃ n : ℤ, f = (n : ℚ) / 10) ∧
      0 ≤ g ∧ (∃ n : ℤ, g = (n : ℚ) / 10) ∧
      0 ≤ a ∧ (∃ n : ℤ, a = (n : ℚ) / 10)) :=
  ⟨by decide, by decide,
    c5_readability_bounds (str "Hi.") (str "d") (by decide) (by decide)⟩

/-! ## Claim C7 — tone tie-break by enumeration order -/

/-- First-match selection over the fixed five-entry enumeration: the
selected category attains the maximum, no earlier category does, and when
all five scores are equal the first (formal) is selected. -/
theorem findMaxTone (score : Tone → Nat) (m : Nat)
    (hm : m = max (max (max (max (score Tone.formal) (score Tone.casual))
      (score Tone.confident)) (score Tone.friendly)) (score Tone.professional)) :
    score ((toneOrder.find? (fun t => score t == m)).getD Tone.professional) = m ∧
    (∀ t : Tone, score t = m →
      toneOrder.indexOf ((toneOrder.find? (fun t => score t == m)).getD Tone.professional) ≤
        toneOrder.indexOf t) ∧
    ((score Tone.formal = score Tone.casual ∧
      score Tone.formal = score Tone.confident ∧
      score Tone.formal = score Tone.friendly ∧
      score Tone.formal = score Tone.professional) →
      (toneOrder.find? (fun t => score t == m)).getD Tone.professional = Tone.formal) := by
  have htie : (score Tone.formal = score Tone.casual ∧
      score Tone.formal = score Tone.confident ∧
      score Tone.formal = score Tone.friendly ∧
      score Tone.formal = score Tone.professional) →
      score Tone.formal = m := by
    rintro ⟨e1, e2, e3, e4⟩
    rw [hm, ← e1, ← e2, ← e3, ← e4]
    simp
  by_cases h1 : score Tone.formal = m
  · have e1 : (score Tone.formal == m) = true := by simp [beq_iff_eq, h1]
    have hd : (toneOrder.find? (fun t => score t == m)).getD Tone.professional =
        Tone.formal := by
      unfold toneOrder
      rw [List.find?_cons_of_pos (p := fun t => score t == m) _ e1]
      rfl
    rw [hd]
    refine ⟨h1, ?_, fun _ => rfl⟩
    intro t ht
    have h0 : toneOrder.indexOf Tone.formal = 0 := by decide
    rw [h0]
    exact Nat.zero_le _
  · have e1 : (score Tone.formal == m) = false := by
      rw [beq_eq_false_iff_ne]
      exact h1
    by_cases h2 : score Tone.casual = m
    · have e2 : (score Tone.casual == m) = true := by simp [beq_iff_eq, h2]
      have hd : (toneOrder.find? (fun t => score t == m)).getD Tone.professional =
          Tone.casual := by
        unfold toneOrder
        rw [List.find?_cons_of_neg (p := fun t => score t == m) _ (by simp [e1]), List.find?_cons_of_pos (p := fun t => score t == m) _ e2]
        rfl
      rw [hd]
      refine ⟨h2, ?_, fun he => absurd (htie he) h1⟩
      intro t ht
      cases t with
      | formal => exact absurd ht h1
      | casual => decide
      | confident => decide
      | friendly => decide
      | professional => decide
    · have e2 : (score Tone.casual == m) = false := by
        rw [beq_eq_false_iff_ne]
        exact h2
      by_cases h3 : score Tone.confident = m
      · have e3 : (score Tone.confident == m) = true := by simp [beq_iff_eq, h3]
        have hd : (toneOrder.find? (fun t => score t == m)).getD Tone.professional =
            Tone.confident := by
          unfold toneOrder
          rw [List.find?_cons_of_neg (p := fun t => score t == m) _ (by simp [e1]),
            List.find?_cons_of_neg (p := fun t => score t == m) _ (by simp [e2]),
            List.find?_cons_of_pos (p := fun t => score t == m) _ e3]
          rfl
        rw [hd]
        refine ⟨h3, ?_, fun he => absurd (htie he) h1⟩
        intro t ht
        cases t with
        | formal => exact absurd ht h1
        | casual => exact absurd ht h2
        | confident => decide
        | friendly => decide
        | professional => decide
      · have e3 : (score Tone.confident == m) = false := by
          rw [beq_eq_false_iff_ne]
          exact h3
        by_cases h4 : score Tone.friendly = m
        · have e4 : (score Tone.friendly == m) = true := by simp [beq_iff_eq, h4]
          have hd : (toneOrder.find? (fun t => score t == m)).getD Tone.professional =
              Tone.friendly := by
            unfold toneOrder
            rw [List.find?_cons_of_neg (p := fun t => score t == m) _ (by simp [e1]),
              List.find?_cons_of_neg (p := fun t => score t == m) _ (by simp [e2]),
              List.find?_cons_of_neg (p := fun t => score t == m) _ (by simp [e3]),
              List.find?_cons_of_pos (p := fun t => score t == m) _ e4]
            rfl
          rw [hd]
          refine ⟨h4, ?_, fun he => absurd (htie he) h1⟩
          intro t ht
          cases t with
          | formal => exact absurd ht h1
          | casual => exact absurd ht h2
          | confident => exact absurd ht h3
          | friendly => decide
          | professional => decide
        · have e4 : (score Tone.friendly == m) = false := by
            rw [beq_eq_false_iff_ne]
            exact h4
          by_cases h5 : score Tone.professional = m
          · have e5 : (score Tone.professional == m) = true := by
              simp [beq_iff_eq, h5]
            have hd : (toneOrder.find? (fun t => score t == m)).getD Tone.professional =
                Tone.professional := by
              unfold toneOrder
              rw [List.find?_cons_of_neg (p := fun t => score t == m) _ (by simp [e1]),
                List.find?_cons_of_neg (p := fun t => score t == m) _ (by simp [e2]),
                List.find?_cons_of_neg (p := fun t => score t == m) _ (by simp [e3]),
                List.find?_cons_of_neg (p := fun t => score t == m) _ (by simp [e4]),
                List.find?_cons_of_pos (p := fun t => score t == m) _ e5]
              rfl
            rw [hd]
            refine ⟨h5, ?_, fun he => absurd (htie he) h1⟩
            intro t ht
            cases t with
            | formal => exact absurd ht h1
            | casual => exact absurd ht h2
            | confident => exact absurd ht h3
            | friendly => exact absurd ht h4
            | professional => decide
          · exfalso
            have hmem : m = score Tone.formal ∨ m = score Tone.casual ∨
                m = score Tone.confident ∨ m = score Tone.friendly ∨
                m = score Tone.professional := by
              rcases max_choice (max (max (max (score Tone.formal) (score Tone.casual))
                (score Tone.confident)) (score Tone.friendly))
                (score Tone.professional) with hA | hA
              · rcases max_choice (max (max (score Tone.formal) (score Tone.casual))
                  (score Tone.confident)) (score Tone.friendly) with hB | hB
                · rcases max_choice (max (score Tone.formal) (score Tone.casual))
                    (score Tone.confident) with hC | hC
                  · rcases max_choice (score Tone.formal) (score Tone.casual) with hD | hD
                    · exact Or.inl (by rw [hm, hA, hB, hC, hD])
                    · exact Or.inr (Or.inl (by rw [hm, hA, hB, hC, hD]))
                  · exact Or.inr (Or.inr (Or.inl (by rw [hm, hA, hB, hC])))
                · exact Or.inr (Or.inr (Or.inr (Or.inl (by rw [hm, hA, hB]))))
              · exact Or.inr (Or.inr (Or.inr (Or.inr (by rw [hm, hA]))))
            rcases hmem with h | h | h | h | h
            · exact h1 h.symm
            · exact h2 h.symm
            · exact h3 h.symm
            · exact h4 h.symm
            · exact h5 h.symm

/-- Claim C7: the dominant tone attains the maximum total score; among
categories attaining the maximum the one earliest in the fixed order
(formal, casual, confident, friendly, professional) is selected; when all
five scores are equal the dominant tone is formal. -/
theorem c7_tone_tie_break (text : List Char) :
    toneScoresOf text (dominantTone text) = maxToneScore text ∧
    (∀ t : Tone, toneScoresOf text t = maxToneScore text →
      toneOrder.indexOf (dominantTone text) ≤ toneOrder.indexOf t) ∧
    ((toneScoresOf text Tone.formal = toneScoresOf text Tone.casual ∧
      toneScoresOf text Tone.formal = toneScoresOf text Tone.confident ∧
      toneScoresOf text Tone.formal = toneScoresOf text Tone.friendly ∧
      toneScoresOf text Tone.formal = toneScoresOf text Tone.professional) →
      dominantTone text = Tone.formal) :=
  findMaxTone (toneScoresOf text) (maxToneScore text) rfl

/-- Concrete instantiation of the tie-break theorem: the empty text gives
all five categories score 0, and the dominant tone is formal. -/
theorem c7_tone_tie_break_witness : dominantTone (str "") = Tone.formal :=
  (c7_tone_tie_break (str "")).2.2 ⟨by decide, by decide, by decide, by decide⟩

/-! ## Claims C2 and C3 — reconciler dedup and ordering -/

/-- The index-carrying filter output is a subsequence of its input. -/
theorem uniqueAux_sublist (orig : List Sugg) (l : List Sugg) (i : Nat) :
    (uniqueAux orig i l).Sublist l := by
  induction l generalizing i with
  | nil => simp [uniqueAux]
  | cons s rest ih =>
    unfold uniqueAux
    by_cases h : (orig.findIdx (fun t => sameSpanB t s) == i) = true
    · rw [if_pos h]
      exact (ih (i + 1)).cons₂ s
    · rw [if_neg h]
      exact (ih (i + 1)).cons s

/-- Same-span suggestions induce the same dedup predicate. -/
theorem sameSpanB_pred_eq {a b : Sugg} (h : sameSpanB a b = true) :
    (fun t => sameSpanB t a) = (fun t => sameSpanB t b) := by
  have hs : a.start_index = b.start_index ∧ a.end_index = b.end_index := by
    unfold sameSpanB at h
    simpa [Bool.and_eq_true, beq_iff_eq] using h
  funext t
  unfold sameSpanB
  rw [hs.1, hs.2]

/-- Every element kept by the filter sits at the position named by
findIdx for its own span. -/
theorem uniqueAux_mem_findIdx (orig : List Sugg) (l : List Sugg) (i : Nat)
    (x : Sugg) (hx : x ∈ uniqueAux orig i l) :
    ∃ j, ∃ hj : j < l.length, l.get ⟨j, hj⟩ = x ∧
      orig.findIdx (fun t => sameSpanB t x) = i + j := by
  induction l generalizing i with
  | nil => simp [uniqueAux] at hx
  | cons s rest ih =>
    unfold uniqueAux at hx
    by_cases h : (orig.findIdx (fun t => sameSpanB t s) == i) = true
    · rw [if_pos h] at hx
      rcases List.mem_cons.1 hx with hx0 | hx1
      · subst hx0
        refine ⟨0, by simp, rfl, ?_⟩
        rw [beq_iff_eq] at h
        omega
      · rcases ih (i + 1) hx1 with ⟨j, hj, hget, hfi⟩
        exact ⟨j + 1, by simpa using hj, hget, by omega⟩
    · rw [if_neg h] at hx
      rcases ih (i + 1) hx with ⟨j, hj, hget, hfi⟩
      exact ⟨j + 1, by simpa using hj, hget, by omega⟩

/-- Conversely, the element at the position named by findIdx for its own
span is kept. -/
theorem uniqueAux_mem_of_findIdx (orig : List Sugg) (l : List Sugg) (i : Nat)
    (j : Nat) (hj : j < l.length)
    (hfi : orig.findIdx (fun t => sameSpanB t (l.get ⟨j, hj⟩)) = i + j) :
    l.get ⟨j, hj⟩ ∈ uniqueAux orig i l := by
  induction l generalizing i j with
  | nil => simp at hj
  | cons s rest ih =>
    unfold uniqueAux
    cases j with
    | zero =>
      have h : (orig.findIdx (fun t => sameSpanB t s) == i) = true := by
        rw [beq_iff_eq]
        simpa using hfi
      rw [if_pos h]
      exact List.mem_cons_self _ _
    | succ j2 =>
      have hj2 : j2 < rest.length := by simpa using hj
      have hrec : rest.get ⟨j2, hj2⟩ ∈ uniqueAux orig (i + 1) rest := by
        apply ih
        have : orig.findIdx (fun t => sameSpanB t (rest.get ⟨j2, hj2⟩)) = i + (j2 + 1) := by
          simpa using hfi
        omega
      by_cases h : (orig.findIdx (fun t => sameSpanB t s) == i) = true
      · rw [if_pos h]
        exact List.mem_cons_of_mem _ hrec
      · rw [if_neg h]
        exact hrec

/-- findIdx over an append stays in the left part when it succeeds there. -/
theorem findIdx_append_left (p : Sugg → Bool) (R L : List Sugg)
    (h : R.findIdx p < R.length) : (R ++ L).findIdx p = R.findIdx p := by
  induction R with
  | nil => simp at h
  | cons a R2 ih =>
    rw [List.cons_append, List.findIdx_cons, List.findIdx_cons]
    cases hp : p a with
    | true => simp
    | false =>
      simp only [cond_false]
      rw [List.findIdx_cons, hp] at h
      simp only [cond_false] at h
      simp only [List.length_cons] at h
      rw [ih (by omega)]

/-- findIdx succeeds inside a list containing a satisfying element. -/
theorem findIdx_lt_of_mem (p : Sugg → Bool) (R : List Sugg) (x : Sugg)
    (hx : x ∈ R) (hp : p x = true) : R.findIdx p < R.length :=
  List.findIdx_lt_length_of_exists ⟨x, hx, hp⟩

/-- Claim C2: the reconciler concatenates Remote first, Local second and
keeps only first occurrences per exact (start, end) span, so whenever a
Remote and a Local suggestion share a span, exactly one suggestion with
that span survives and it is an element of the Remote list. -/
theorem c2_remote_wins (text docId : List Char) (ms : List LTMatch)
    (r l : Sugg) (hr : r ∈ remoteSuggestions text docId ms)
    (hl : l ∈ generateBasicSuggestions text docId)
    (hspan : sameSpanB r l = true) :
    (∃ x ∈ mergedSuggestions text docId ms,
      x ∈ remoteSuggestions text docId ms ∧ sameSpanB x r = true) ∧
    (∀ x ∈ mergedSuggestions text docId ms, sameSpanB x r = true →
      x ∈ remoteSuggestions text docId ms) ∧
    (∀ x y, x ∈ mergedSuggestions text docId ms →
      y ∈ mergedSuggestions text docId ms →
      sameSpanB x r = true → sameSpanB y r = true → x = y) := by
  classical
  set R := remoteSuggestions text docId ms with hR
  set L := generateBasicSuggestions text docId with hL
  have hmerged : mergedSuggestions text docId ms = uniqueAux (R ++ L) 0 (R ++ L) := rfl
  set p := fun t => sameSpanB t r with hp
  have hrr : p r = true := by
    rw [hp]
    unfold sameSpanB
    simp
  have hfR : R.findIdx p < R.length := findIdx_lt_of_mem p R r hr hrr
  have hfRL : (R ++ L).findIdx p = R.findIdx p := findIdx_append_left p R L hfR
  set j := R.findIdx p with hj
  have hjlen : j < (R ++ L).length := by
    rw [List.length_append]
    omega
  set x0 := (R ++ L).get ⟨j, hjlen⟩ with hx0
  have hx0R : x0 ∈ R := by
    rw [hx0]
    have hgetR : (R ++ L).get ⟨j, hjlen⟩ = R.get ⟨j, hfR⟩ := List.get_append j hfR
    rw [hgetR]
    exact List.get_mem R j hfR
  have hpx0 : p x0 = true := by
    rw [hx0]
    have := @List.findIdx_get _ p (R ++ L) (by rw [hfRL]; exact hjlen)
    simpa [hfRL] using this
  have hpredx0 : (fun t => sameSpanB t x0) = p := sameSpanB_pred_eq hpx0
  have hx0mem : x0 ∈ mergedSuggestions text docId ms := by
    rw [hmerged]
    apply uniqueAux_mem_of_findIdx (R ++ L) (R ++ L) 0 j hjlen
    rw [← hx0]
    rw [hpredx0, hfRL]
    omega
  have hforward : ∀ x ∈ mergedSuggestions text docId ms, sameSpanB x r = true →
      x = x0 := by
    intro x hx hxr
    rw [hmerged] at hx
    rcases uniqueAux_mem_findIdx (R ++ L) (R ++ L) 0 x hx with ⟨jx, hjx, hget, hfi⟩
    have hpredx : (fun t => sameSpanB t x) = p := sameSpanB_pred_eq hxr
    rw [hpredx, hfRL] at hfi
    have : jx = j := by omega
    subst this
    rw [← hget, hx0]
  refine ⟨⟨x0, hx0mem, hx0R, hpx0⟩, ?_, ?_⟩
  · intro x hx hxr
    rw [hforward x hx hxr]
    exact hx0R
  · intro x y hx hy hxr hyr
    rw [hforward x hx hxr, hforward y hy hyr]

/-- Concrete instantiation of the Remote-wins theorem: on "teh x" with a
Remote match covering the same span (0,3) as the Local "teh" hit, the
surviving suggestion at that span is Remote-sourced. -/
theorem c2_remote_wins_witness :
    ∃ x ∈ mergedSuggestions (str "teh x") (str "d")
        [⟨str "m", 0, 3, [str "the"], str "R1", str "TYPOS"⟩],
      x ∈ remoteSuggestions (str "teh x") (str "d")
          [⟨str "m", 0, 3, [str "the"], str "R1", str "TYPOS"⟩] ∧
      sameSpanB x ⟨str "d", 0, 3, IssueType.spelling, str "teh", str "the",
        str "m"⟩ = true := by
  have h := c2_remote_wins (str "teh x") (str "d")
    [⟨str "m", 0, 3, [str "the"], str "R1", str "TYPOS"⟩]
    ⟨str "d", 0, 3, IssueType.spelling, str "teh", str "the", str "m"⟩
    ⟨str "d", 0, 3, IssueType.spelling, str "teh", str "the",
      str "Spelling: \"teh\" should be \"the\""⟩
    (by decide) (by decide) (by decide)
  exact h.1

/-- Claim C3 (counterexample): the reconciler never sorts.  For text
"Hello teh cat" with one Remote match at span (10,13), the merged output
keeps Remote order first and Local order second: start indices [10, 6],
which is not ascending. -/
theorem c3_counterexample :
    ((mergedSuggestions (str "Hello teh cat") (str "d1")
        [⟨str "m", 10, 3, [str "dog"], str "R1", str "TYPOS"⟩]).map
      Sugg.start_index = [10, 6]) ∧
    ¬ List.Pairwise (fun a b : Sugg => a.start_index ≤ b.start_index)
        (mergedSuggestions (str "Hello teh cat") (str "d1")
          [⟨str "m", 10, 3, [str "dog"], str "R1", str "TYPOS"⟩]) := by
  constructor
  · decide
  · decide

/-- Claim C3 (amended): neither return path sorts.  The merged path
returns an order-preserving subsequence (the first-occurrence-per-span
dedup) of the Remote-then-Local concatenation, so its output is ascending
by start exactly when that concatenation happens to be; no sorting step
exists in the code. -/
theorem c3_no_sort (text docId : List Char) (ms : List LTMatch) :
    (mergedSuggestions text docId ms).Sublist
      (remoteSuggestions text docId ms ++ generateBasicSuggestions text docId) ∧
    (List.Pairwise (fun a b : Sugg => a.start_index ≤ b.start_index)
        (remoteSuggestions text docId ms ++ generateBasicSuggestions text docId) →
      List.Pairwise (fun a b : Sugg => a.start_index ≤ b.start_index)
        (mergedSuggestions text docId ms)) := by
  have hsub : (mergedSuggestions text docId ms).Sublist
      (remoteSuggestions text docId ms ++ generateBasicSuggestions text docId) :=
    uniqueAux_sublist _ _ 0
  exact ⟨hsub, fun hp => hp.sublist hsub⟩

/-- Concrete instantiation of the no-sort theorem: with no Remote matches
on "teh adn" the concatenation is the Local list, already ascending, and
the merged output is ascending too. -/
theorem c3_no_sort_witness :
    List.Pairwise (fun a b : Sugg => a.start_index ≤ b.start_index)
      (mergedSuggestions (str "teh adn") (str "d") []) :=
  (c3_no_sort (str "teh adn") (str "d") []).2 (by decide)

/-! ## Claims C1 and C9 — debounce coordinator -/

/-- Absence is preserved by every event. -/
theorem absentTask_step (t : Task) (s : EngineState) (h : absentTask t s)
    (e : Event) : absentTask t (step s e) := by
  obtain ⟨hp, hr, hd, hg⟩ := h
  cases e with
  | edit d =>
    refine ⟨?_, hr, hd, ?_⟩
    · intro hc
      simp only [step, Option.some_inj] at hc
      have hdoc : t.doc = d := by rw [← hc]
      have hgen : t.gen = s.gens d + 1 := by rw [← hc]
      rw [hdoc] at hg
      omega
    · show t.gen ≤ (if t.doc = d then s.gens d + 1 else s.gens t.doc)
      by_cases hdoc : t.doc = d
      · rw [if_pos hdoc]
        rw [hdoc] at hg
        omega
      · rw [if_neg hdoc]
        exact hg
  | fire =>
    cases hpend : s.pending with
    | none =>
      simp only [step, hpend]
      exact ⟨hp, hr, hd, hg⟩
    | some u =>
      simp only [step, hpend]
      refine ⟨by simp, ?_, hd, hg⟩
      intro hc
      rcases List.mem_cons.1 hc with hc1 | hc2
      · rw [hpend, hc1] at hp
        exact hp rfl
      · exact hr hc2
  | complete u =>
    by_cases hu : u ∈ s.running
    · simp only [step, if_pos hu]
      refine ⟨hp, ?_, ?_, hg⟩
      · intro hc
        exact hr (List.mem_of_mem_erase hc)
      · intro hc
        rcases List.mem_cons.1 hc with hc1 | hc2
        · rw [hc1] at hr
          exact hr hu
        · exact hd hc2
    · simp only [step, if_neg hu]
      exact ⟨hp, hr, hd, hg⟩

/-- Absence is preserved by every event sequence. -/
theorem absentTask_run (t : Task) (s : EngineState) (h : absentTask t s)
    (es : List Event) : absentTask t (runEngine s es) := by
  induction es generalizing s with
  | nil => exact h
  | cons e es ih => exact ih (step s e) (absentTask_step t s h e)

/-- An edit for any document makes a not-yet-dispatched task absent: the
single static debounce slot is overwritten. -/
theorem absentTask_after_edit (t : Task) (s : EngineState) (d2 : Nat)
    (hr : t ∉ s.running) (hd : t ∉ s.delivered)
    (hg : t.gen ≤ s.gens t.doc) : absentTask t (step s (Event.edit d2)) := by
  refine ⟨?_, hr, hd, ?_⟩
  · intro hc
    simp only [step, Option.some_inj] at hc
    have hdoc : t.doc = d2 := by rw [← hc]
    have hgen : t.gen = s.gens d2 + 1 := by rw [← hc]
    rw [hdoc] at hg
    omega
  · show t.gen ≤ (if t.doc = d2 then s.gens d2 + 1 else s.gens t.doc)
    by_cases hdoc : t.doc = d2
    · rw [if_pos hdoc]
      rw [hdoc] at hg
      omega
    · rw [if_neg hdoc]
      exact hg

/-- Claim C1 (counterexample): in the trace edit, timer fires, edit,
completion — generation 1 of document 0 is dispatched, superseded by
generation 2, and its result is still delivered: the code has no
generation check, so the stale result reaches the callback. -/
theorem c1_counterexample :
    (⟨0, 1⟩ : Task) ∈ (runEngine initState
      [Event.edit 0, Event.fire, Event.edit 0, Event.complete ⟨0, 1⟩]).delivered ∧
    (runEngine initState
      [Event.edit 0, Event.fire, Event.edit 0, Event.complete ⟨0, 1⟩]).gens 0 = 2 := by
  constructor
  · decide
  · decide

/-- Claim C1 (amended): stale suppression exists only before dispatch.
If generation g of document d is still pending (timer not yet fired) when
a new edit for d arrives, then g is cancelled and is never delivered in
any continuation; once dispatched, a result is delivered on completion
regardless of later edits (see the counterexample). -/
theorem c1_cancel_before_dispatch (s : EngineState) (d g : Nat)
    (hp : s.pending = some ⟨d, g⟩) (hr : (⟨d, g⟩ : Task) ∉ s.running)
    (hd : (⟨d, g⟩ : Task) ∉ s.delivered) (hg : g ≤ s.gens d)
    (es : List Event) :
    (⟨d, g⟩ : Task) ∉ (runEngine (step s (Event.edit d)) es).delivered :=
  (absentTask_run ⟨d, g⟩ _ (absentTask_after_edit ⟨d, g⟩ s d hr hd hg) es).2.2.1

/-- Concrete instantiation of the cancellation theorem: after edit(doc 0)
the pending generation-1 task, superseded by a second edit before its
timer fires, is never delivered across a fire-and-complete continuation. -/
theorem c1_cancel_before_dispatch_witness :
    (⟨0, 1⟩ : Task) ∉ (runEngine
      (step (runEngine initState [Event.edit 0]) (Event.edit 0))
      [Event.fire, Event.complete ⟨0, 2⟩, Event.complete ⟨0, 1⟩]).delivered :=
  c1_cancel_before_dispatch (runEngine initState [Event.edit 0]) 0 1
    (by decide) (by decide) (by decide) (by decide)
    [Event.fire, Event.complete ⟨0, 2⟩, Event.complete ⟨0, 1⟩]

/-- Claim C9 (counterexample): the debounce slot is one static field
shared by every document.  After edit(doc 0) the slot holds document 0's
task; edit(doc 1) overwrites it, so document 0's pending analysis is
cancelled and — as the continued trace shows — never runs or delivers. -/
theorem c9_counterexample :
    ((runEngine initState [Event.edit 0]).pending = some ⟨0, 1⟩) ∧
    ((runEngine initState [Event.edit 0, Event.edit 1]).pending = some ⟨1, 1⟩) ∧
    ((runEngine initState [Event.edit 0, Event.edit 1]).pending ≠ some ⟨0, 1⟩) ∧
    ((⟨0, 1⟩ : Task) ∉ (runEngine initState
      [Event.edit 0, Event.edit 1, Event.fire,
        Event.complete ⟨1, 1⟩, Event.complete ⟨0, 1⟩]).delivered) ∧
    ((⟨1, 1⟩ : Task) ∈ (runEngine initState
      [Event.edit 0, Event.edit 1, Event.fire,
        Event.complete ⟨1, 1⟩, Event.complete ⟨0, 1⟩]).delivered) := by
  refine ⟨?_, ?_, ?_, ?_, ?_⟩ <;> decide

/-- Claim C9 (amended): debounce state is shared across documents — the
class keeps a single static slot.  Scheduling an analysis for document d2
cancels the pending not-yet-dispatched analysis of any other document:
the cancelled task is no longer pending and is never delivered in any
continuation. -/
theorem c9_cross_document_cancel (s : EngineState) (t : Task) (d2 : Nat)
    (hne : t.doc ≠ d2) (hp : s.pending = some t)
    (hr : t ∉ s.running) (hd : t ∉ s.delivered) (hg : t.gen ≤ s.gens t.doc)
    (es : List Event) :
    (step s (Event.edit d2)).pending ≠ some t ∧
    t ∉ (runEngine (step s (Event.edit d2)) es).delivered :=
  ⟨(absentTask_after_edit t s d2 hr hd hg).1,
    (absentTask_run t _ (absentTask_after_edit t s d2 hr hd hg) es).2.2.1⟩

/-- Concrete instantiation of the cross-document cancellation theorem:
document 0's pending task is cancelled by an edit for document 1 and is
never delivered in the continued trace. -/
theorem c9_cross_document_cancel_witness :
    (step (runEngine initState [Event.edit 0]) (Event.edit 1)).pending ≠
      some ⟨0, 1⟩ ∧
    (⟨0, 1⟩ : Task) ∉ (runEngine
      (step (runEngine initState [Event.edit 0]) (Event.edit 1))
      [Event.fire, Event.complete ⟨1, 1⟩, Event.complete ⟨0, 1⟩]).delivered :=
  c9_cross_document_cancel (runEngine initState [Event.edit 0]) ⟨0, 1⟩ 1
    (by decide) (by decide) (by decide) (by decide) (by decide)
    [Event.fire, Event.complete ⟨1, 1⟩, Event.complete ⟨0, 1⟩]

/-! ## Claim C10 — accept-then-rerun -/

/-- A successful prefix test pins down the corresponding take. -/
theorem isPrefixOf_take : ∀ {nd l : List Char}, nd.isPrefixOf l = true →
    l.take nd.length = nd
  | [], l, _ => by simp
  | a :: nd, [], h => by simp [List.isPrefixOf] at h
  | a :: nd, b :: t, h => by
    simp only [List.isPrefixOf, Bool.and_eq_true, beq_iff_eq] at h
    rw [List.length_cons, List.take_succ_cons, isPrefixOf_take h.2, h.1]

/-- A prefix is no longer than the list. -/
theorem isPrefixOf_length_le {nd l : List Char} (h : nd.isPrefixOf l = true) :
    nd.length ≤ l.length := by
  have ht := congrArg List.length (isPrefixOf_take h)
  rw [List.length_take] at ht
  omega

/-- The scan returns a position at or after its start, within the text,
with the needle as prefix there. -/
theorem scanIdx_sound (nd : List Char) : ∀ (l : List Char) (p q : Nat),
    scanIdx nd l p = some q →
    p ≤ q ∧ q ≤ p + l.length ∧ nd.isPrefixOf (l.drop (q - p)) = true := by
  intro l
  induction l with
  | nil =>
    intro p q h
    unfold scanIdx at h
    by_cases hpre : nd.isPrefixOf ([] : List Char) = true
    · rw [if_pos hpre, Option.some_inj] at h
      subst h
      simpa using hpre
    · rw [if_neg hpre] at h
      simp at h
  | cons c t ih =>
    intro p q h
    unfold scanIdx at h
    by_cases hpre : nd.isPrefixOf (c :: t) = true
    · rw [if_pos hpre, Option.some_inj] at h
      subst h
      simpa using hpre
    · rw [if_neg hpre] at h
      rcases ih (p + 1) q h with ⟨h1, h2, h3⟩
      refine ⟨by omega, by simp only [List.length_cons]; omega, ?_⟩
      have hq : q - p = (q - (p + 1)) + 1 := by omega
      rw [hq, List.drop_succ_cons]
      exact h3

/-- A non-negative indexOf result marks a real occurrence: the needle is
the take at that position and fits inside the haystack. -/
theorem jsIndexOf_sound {hay nd : List Char} {ci : Int} {p : Int}
    (hfind : jsIndexOf hay nd ci = p) (hpos : 0 ≤ p) :
    (hay.drop p.toNat).take nd.length = nd ∧
      p.toNat + nd.length ≤ hay.length := by
  unfold jsIndexOf at hfind
  simp only [] at hfind
  cases hscan : scanIdx nd (hay.drop (min ci.toNat hay.length))
      (min ci.toNat hay.length) with
  | none =>
    rw [hscan] at hfind
    have h2 : (-1 : Int) = p := hfind
    rw [← h2] at hpos
    omega
  | some q =>
    rw [hscan] at hfind
    have h2 : (q : Int) = p := hfind
    have hq : p.toNat = q := by
      rw [← h2]
      exact Int.toNat_natCast q
    rcases scanIdx_sound nd _ _ _ hscan with ⟨h1, h2, h3⟩
    have hsle : min ci.toNat hay.length ≤ hay.length := min_le_right _ _
    have hdd : (hay.drop (min ci.toNat hay.length)).drop
        (q - min ci.toNat hay.length) = hay.drop q := by
      rw [List.drop_drop]
      congr 1
      omega
    rw [hdd] at h3
    have hlen := isPrefixOf_length_le h3
    rw [List.length_drop] at hlen
    have hdl : (hay.drop (min ci.toNat hay.length)).length =
        hay.length - min ci.toNat hay.length := List.length_drop _ _
    rw [hdl] at h2
    refine ⟨?_, ?_⟩
    · rw [hq]
      exact isPrefixOf_take h3
    · omega

/-- Inversion for the basic-suggestion loop: every emitted suggestion
comes from a word with a misspelling-table hit, its span is the indexOf
position plus the word length, and its suggested text is the
case-sensitive first-occurrence replacement. -/
theorem genBasicAux_mem {text docId : List Char} :
    ∀ (ws : List (List Char)) (ci : Int) (x : Sugg),
      x ∈ genBasicAux text docId ws ci →
      ∃ (w corr : List Char) (ci2 : Int),
        lookupMiss (cleanWord w) = some corr ∧
        x.start_index = jsIndexOf text w ci2 ∧
        x.end_index = x.start_index + (w.length : Int) ∧
        x.original_text = w ∧
        x.suggested_text = jsReplaceOnce w (cleanWord w) corr := by
  intro ws
  induction ws with
  | nil =>
    intro ci x hx
    simp [genBasicAux] at hx
  | cons w ws ih =>
    intro ci x hx
    unfold genBasicAux at hx
    simp only [] at hx
    cases hlk : lookupMiss (cleanWord w) with
    | some corr =>
      rw [hlk] at hx
      rcases List.mem_cons.1 hx with hx0 | hx1
      · subst hx0
        exact ⟨w, corr, ci, hlk, rfl, rfl, rfl, rfl⟩
      · exact ih _ x hx1
    | none =>
      rw [hlk] at hx
      exact ih _ x hx

/-- A replacement that changed the string exhibits the pattern
occurrence: w = a ++ (pat ++ b) and the result is a ++ (rep ++ b). -/
theorem jsReplaceOnce_decomp {w k c : List Char}
    (hne : jsReplaceOnce w k c ≠ w) :
    ∃ a b, w = a ++ (k ++ b) ∧ jsReplaceOnce w k c = a ++ (c ++ b) := by
  unfold jsReplaceOnce at hne ⊢
  simp only [] at hne ⊢
  by_cases hneg : jsIndexOf w k 0 < 0
  · rw [if_pos hneg] at hne
    exact absurd rfl hne
  · rw [if_neg hneg] at hne ⊢
    push_neg at hneg
    rcases jsIndexOf_sound rfl hneg with ⟨htake, hlen⟩
    refine ⟨w.take (jsIndexOf w k 0).toNat,
      w.drop ((jsIndexOf w k 0).toNat + k.length), ?_,
      List.append_assoc _ _ _⟩
    have h3 : (w.drop (jsIndexOf w k 0).toNat).drop k.length =
        w.drop ((jsIndexOf w k 0).toNat + k.length) :=
      List.drop_drop k.length (jsIndexOf w k 0).toNat w
    have key : k ++ w.drop ((jsIndexOf w k 0).toNat + k.length) =
        w.drop (jsIndexOf w k 0).toNat := by
      calc k ++ w.drop ((jsIndexOf w k 0).toNat + k.length)
          = (w.drop (jsIndexOf w k 0).toNat).take k.length ++
            (w.drop (jsIndexOf w k 0).toNat).drop k.length := by rw [htake, h3]
        _ = w.drop (jsIndexOf w k 0).toNat := List.take_append_drop _ _
    calc w = w.take (jsIndexOf w k 0).toNat ++ w.drop (jsIndexOf w k 0).toNat :=
        (List.take_append_drop _ w).symm
      _ = w.take (jsIndexOf w k 0).toNat ++
          (k ++ w.drop ((jsIndexOf w k 0).toNat + k.length)) := by rw [key]

/-- A successful table lookup names an entry of the table. -/
theorem lookupMiss_mem {k c : List Char} (h : lookupMiss k = some c) :
    (k, c) ∈ commonMisspellings := by
  unfold lookupMiss at h
  cases hf : commonMisspellings.find? (fun p => p.1 == k) with
  | none =>
    rw [hf] at h
    simp at h
  | some pr =>
    rw [hf] at h
    simp only [Option.map_some'] at h
    have hmem := List.mem_of_find?_eq_some hf
    have hpred := List.find?_some hf
    simp only [beq_iff_eq] at hpred
    have hpr : pr = (k, c) := by
      cases pr with
      | mk p1 p2 =>
        simp only at hpred
        rw [Option.some_inj] at h
        simp only at h
        rw [hpred, h]
    rw [← hpr]
    exact hmem

/-- No misspelling-table key is a prefix of its correction and no
correction is a prefix of its key (stated through take). -/
theorem table_take_ne :
    ∀ pr ∈ commonMisspellings,
      pr.2.take pr.1.length ≠ pr.1 ∧ pr.1.take pr.2.length ≠ pr.2 := by
  decide

/-- Taking at most the left part of an append. -/
theorem take_append_le {x y : List Char} {n : Nat} (h : n ≤ x.length) :
    (x ++ y).take n = x.take n := by
  rw [List.take_append_eq_append_take]
  have h0 : n - x.length = 0 := by omega
  rw [h0]
  simp

/-- The middle-segment comparison: if a ++ (k ++ b) is an initial segment
of (a ++ (c ++ b)) ++ rest and k is at most as long as c, then k is the
corresponding take of c. -/
theorem take_mid_eq {a k b c rest : List Char} (hk : k.length ≤ c.length)
    (h : a ++ (k ++ b) = ((a ++ (c ++ b)) ++ rest).take (a ++ (k ++ b)).length) :
    k = c.take k.length := by
  rw [List.append_assoc] at h
  have hlen : (a ++ (k ++ b)).length = a.length + (k.length + b.length) := by
    simp [List.length_append]
  rw [hlen, List.take_append_eq_append_take,
    List.take_all_of_le (by omega : a.length ≤ a.length + (k.length + b.length))] at h
  have hsub : a.length + (k.length + b.length) - a.length = k.length + b.length := by
    omega
  rw [hsub] at h
  have h2 : k ++ b = ((c ++ b) ++ rest).take (k.length + b.length) :=
    List.append_cancel_left h
  have h3 := congrArg (List.take k.length) h2
  rw [List.take_take] at h3
  have hmin : min k.length (k.length + b.length) = k.length := by omega
  rw [hmin, List.take_left] at h3
  rw [List.append_assoc] at h3
  rw [take_append_le hk] at h3
  exact h3

/-- Claim C10 (counterexample): the Local source regenerates an identical
suggestion after acceptance.  For text "Teh" the emitted suggestion has
suggested text "Teh" (the case-sensitive replace is a no-op on the
capitalised word), accepting it leaves the text unchanged, and the rerun
emits the very same (span, original, suggested) suggestion. -/
theorem c10_counterexample :
    generateBasicSuggestions (str "Teh") (str "d1") =
      [⟨str "d1", 0, 3, IssueType.spelling, str "Teh", str "Teh",
        str "Spelling: \"Teh\" should be \"the\""⟩] ∧
    applyAccept (str "Teh")
      ⟨str "d1", 0, 3, IssueType.spelling, str "Teh", str "Teh",
        str "Spelling: \"Teh\" should be \"the\""⟩ = str "Teh" ∧
    generateBasicSuggestions (applyAccept (str "Teh")
      ⟨str "d1", 0, 3, IssueType.spelling, str "Teh", str "Teh",
        str "Spelling: \"Teh\" should be \"the\""⟩) (str "d1") =
      [⟨str "d1", 0, 3, IssueType.spelling, str "Teh", str "Teh",
        str "Spelling: \"Teh\" should be \"the\""⟩] := by
  refine ⟨?_, ?_, ?_⟩ <;> decide

/-- Claim C10 (amended): if the accepted suggestion actually changes its
span (suggested text differs from the original text) and was emitted at a
found position, then re-running the Local source over the updated text
never emits a suggestion with the same span, same original text and same
suggested text: no misspelling-table key is a prefix of its correction or
vice versa, so the replaced span can no longer read as the original word. -/
theorem c10_accept_no_identical (text docId : List Char) (sugg : Sugg)
    (hmem : sugg ∈ generateBasicSuggestions text docId)
    (hpos : 0 ≤ sugg.start_index)
    (hchanged : sugg.suggested_text ≠ sugg.original_text) :
    ∀ t ∈ generateBasicSuggestions (applyAccept text sugg) docId,
      ¬(t.start_index = sugg.start_index ∧ t.end_index = sugg.end_index ∧
        t.original_text = sugg.original_text ∧
        t.suggested_text = sugg.suggested_text) := by
  intro t ht hid
  obtain ⟨hts, hte2, hto, htsg⟩ := hid
  rcases genBasicAux_mem (splitOn isWs text) 0 sugg hmem with
    ⟨w, corr, ci, hlk, hstart, hend, horig, hsugg⟩
  rcases jsIndexOf_sound hstart.symm hpos with ⟨htake1, hlen1⟩
  rcases genBasicAux_mem (splitOn isWs (applyAccept text sugg)) 0 t ht with
    ⟨w2, corr2, ci2, hlk2, hstart2, hend2, horig2, hsugg2⟩
  have hw2 : w2 = w := by rw [← horig2, hto, horig]
  have hpos2 : 0 ≤ t.start_index := by rw [hts]; exact hpos
  rcases jsIndexOf_sound hstart2.symm hpos2 with ⟨htake2, hlen2⟩
  rw [hw2, hts] at htake2
  have hsNle : sugg.start_index.toNat ≤ text.length := by omega
  have hdrop : (applyAccept text sugg).drop sugg.start_index.toNat =
      sugg.suggested_text ++ text.drop sugg.end_index.toNat := by
    unfold applyAccept
    rw [List.append_assoc]
    exact List.drop_left' (by rw [List.length_take]; omega)
  rw [hdrop] at htake2
  have hc'w : sugg.suggested_text ≠ w := by
    rw [← horig]
    exact hchanged
  have hdec := jsReplaceOnce_decomp (k := cleanWord w) (c := corr)
    (by rw [← hsugg]; exact hc'w)
  rcases hdec with ⟨a, b, hwdec, hcdec⟩
  rw [← hsugg] at hcdec
  have hpair := lookupMiss_mem hlk
  have hnopre := table_take_ne _ hpair
  have hlw : w.length = a.length + ((cleanWord w).length + b.length) := by
    have h0 := congrArg List.length hwdec
    simpa [List.length_append] using h0
  have hlc : sugg.suggested_text.length = a.length + (corr.length + b.length) := by
    have h0 := congrArg List.length hcdec
    simpa [List.length_append] using h0
  by_cases hll : w.length ≤ sugg.suggested_text.length
  · have hk : (cleanWord w).length ≤ corr.length := by omega
    have h := htake2.symm
    rw [hcdec] at h
    rw [hwdec] at h
    exact hnopre.1 (take_mid_eq hk h).symm
  · push_neg at hll
    have hk2 : corr.length ≤ (cleanWord w).length := by omega
    have h4 : (sugg.suggested_text ++ text.drop sugg.end_index.toNat).take w.length =
        sugg.suggested_text ++
          (text.drop sugg.end_index.toNat).take
            (w.length - sugg.suggested_text.length) := by
      rw [List.take_append_eq_append_take,
        List.take_all_of_le (by omega : sugg.suggested_text.length ≤ w.length)]
    have h5 : w = sugg.suggested_text ++
        (text.drop sugg.end_index.toNat).take
          (w.length - sugg.suggested_text.length) := htake2.symm.trans h4
    have h6 : sugg.suggested_text =
        (w ++ ([] : List Char)).take sugg.suggested_text.length := by
      rw [List.append_nil, h5, take_append_le (le_refl _), List.take_length]
    rw [hcdec] at h6
    rw [hwdec] at h6
    exact hnopre.2 (take_mid_eq hk2 h6).symm

/-- Concrete instantiation of the accept-then-rerun theorem: accepting the
lowercase "teh" → "the" suggestion on "teh adn" gives "the adn", whose
rerun emits only the (4,7) "adn" suggestion — not an identical copy of
the accepted one. -/
theorem c10_accept_no_identical_witness :
    ¬((4 : Int) = (0 : Int) ∧ (7 : Int) = (3 : Int) ∧
      str "adn" = str "teh" ∧ str "and" = str "the") :=
  c10_accept_no_identical (str "teh adn") (str "d")
    ⟨str "d", 0, 3, IssueType.spelling, str "teh", str "the",
      str "Spelling: \"teh\" should be \"the\""⟩
    (by decide) (by decide) (by decide)
    ⟨str "d", 4, 7, IssueType.spelling, str "adn", str "and",
      str "Spelling: \"adn\" should be \"and\""⟩
    (by decide)

end WA
